import Mathlib

/-!
Verification of the options-pricing engine.

Shallow embedding, in Lean 4, of the numerical core of the options-pricing
repository (`models.py` and the risk-metrics block of `main.py`), together
with theorems settling the specified properties.

Conventions of the embedding:
* Python/numpy floats are modelled as real numbers (`ℝ`).
* numpy arrays are modelled as `List ℝ`; vectorized arithmetic becomes
  `List.map` / `List.zipWith`.
* `scipy.stats.norm.cdf` / `norm.pdf` are modelled by the genuine standard
  normal cumulative distribution function and density over `ℝ`.
* `np.random.standard_normal(simulations)` is modelled by passing the drawn
  variates explicitly as a list argument (the randomness source).
* `np.mean` is sum divided by length; on an empty list the real-number
  division-by-zero convention yields the junk value `0`, standing in for
  the numpy `NaN`.
-/

open MeasureTheory

namespace OptionsPricing

/-- The standard normal probability density function, `scipy.stats.norm.pdf`:
`exp (-x²/2) / √(2π)`. -/
noncomputable def normPdf (x : ℝ) : ℝ :=
  Real.exp (-(x ^ 2) / 2) / Real.sqrt (2 * Real.pi)

/-- The standard normal cumulative distribution function,
`scipy.stats.norm.cdf`: the integral of `normPdf` over `(-∞, x]`. -/
noncomputable def normCdf (x : ℝ) : ℝ :=
  ∫ t in Set.Iic x, normPdf t

/-- Option type selector; the source passes the strings `call` / `put`. -/
inductive OptionType
  | call
  | put
deriving DecidableEq

/-- The quantity `d1` computed identically in `black_scholes` and
`calculate_greeks` (models.py lines 8 and 19):
`d1 = (log(S/K) + (r + 0.5 σ²) T) / (σ √T)`. -/
noncomputable def bs_d1 (S K T r sigma : ℝ) : ℝ :=
  (Real.log (S / K) + (r + 0.5 * sigma ^ 2) * T) / (sigma * Real.sqrt T)

/-- Definition of `d2 = d1 - σ √T` (models.py line 9). -/
noncomputable def bs_d2 (S K T r sigma : ℝ) : ℝ :=
  bs_d1 S K T r sigma - sigma * Real.sqrt T

/-- Embedding of `black_scholes` (models.py lines 6-14): closed-form European option
price. Call: `S Φ(d1) - K e^{-rT} Φ(d2)`; put: `K e^{-rT} Φ(-d2) - S Φ(-d1)`. -/
noncomputable def black_scholes (S K T r sigma : ℝ) (option_type : OptionType) : ℝ :=
  match option_type with
  | .call =>
      S * normCdf (bs_d1 S K T r sigma)
        - K * Real.exp (-r * T) * normCdf (bs_d2 S K T r sigma)
  | .put =>
      K * Real.exp (-r * T) * normCdf (-bs_d2 S K T r sigma)
        - S * normCdf (-bs_d1 S K T r sigma)

/-- The four sensitivities returned by `calculate_greeks`; the source returns
a dict with exactly the keys `Delta`, `Gamma`, `Theta`, `Vega`. -/
structure Greeks where
  Delta : ℝ
  Gamma : ℝ
  Theta : ℝ
  Vega : ℝ

/-- Embedding of `calculate_greeks` (models.py lines 17-32). Delta is `Φ(d1)` for a call
and `Φ(d1) - 1` for a put; Gamma is `φ(d1) / (S σ √T)`; Theta is the base
decay term `-S φ(d1) σ / (2 √T)` adjusted by the rate term and divided by
365; Vega is `S φ(d1) √T / 100`. -/
noncomputable def calculate_greeks (S K T r sigma : ℝ) (option_type : OptionType) : Greeks :=
  { Delta :=
      match option_type with
      | .call => normCdf (bs_d1 S K T r sigma)
      | .put => normCdf (bs_d1 S K T r sigma) - 1
    Gamma := normPdf (bs_d1 S K T r sigma) / (S * sigma * Real.sqrt T)
    Theta :=
      match option_type with
      | .call =>
          (-S * normPdf (bs_d1 S K T r sigma) * sigma / (2 * Real.sqrt T)
            - r * K * Real.exp (-r * T)
              * normCdf (bs_d1 S K T r sigma - sigma * Real.sqrt T)) / 365
      | .put =>
          (-S * normPdf (bs_d1 S K T r sigma) * sigma / (2 * Real.sqrt T)
            + r * K * Real.exp (-r * T)
              * normCdf (-(bs_d1 S K T r sigma - sigma * Real.sqrt T))) / 365
    Vega := S * normPdf (bs_d1 S K T r sigma) * Real.sqrt T / 100 }

/-- Model of `np.linspace(start, stop, num)` with endpoint semantics: the `num`
points `start + (stop - start) * i / (num - 1)` for `i = 0, …, num - 1`. -/
noncomputable def linspace (start stop : ℝ) (num : ℕ) : List ℝ :=
  (List.range num).map fun i : ℕ => start + (stop - start) * (i : ℝ) / ((num : ℝ) - 1)

/-- Embedding of `get_price_range` (models.py lines 34-37):
`np.linspace(S * (1 - factor), S * (1 + factor), 100)`. -/
noncomputable def get_price_range (S : ℝ) (factor : ℝ := 0.5) : List ℝ :=
  linspace (S * (1 - factor)) (S * (1 + factor)) 100

/-- Embedding of `option_payoff` (models.py lines 39-41):
`np.maximum(S_range - K, 0)` for a call, `np.maximum(K - S_range, 0)` for a
put, element-wise over the price grid. -/
noncomputable def option_payoff (S_range : List ℝ) (K : ℝ)
    (option_type : OptionType) : List ℝ :=
  match option_type with
  | .call => S_range.map fun s => max (s - K) 0
  | .put => S_range.map fun s => max (K - s) 0

/-- Scalar terminal payoff of a single option at terminal price `s`:
`max (s - K) 0` for a call, `max (K - s) 0` for a put. Spec-side scalar
form used to state element-wise properties of the vectorized source
functions. -/
noncomputable def scalarPayoff (s K : ℝ) (option_type : OptionType) : ℝ :=
  match option_type with
  | .call => max (s - K) 0
  | .put => max (K - s) 0

/-- Buy/sell selector; the source passes the strings `buy` / `sell`. -/
inductive Action
  | buy
  | sell
deriving DecidableEq

/-- One leg of a strategy: the dict with keys `type`, `strike`, `action`,
`quantity`, `premium` built in main.py. -/
structure Position where
  type : OptionType
  strike : ℝ
  action : Action
  quantity : ℝ
  premium : ℝ

/-- The sign convention of `strategy_payoff` (models.py line 50):
`1` for a buy and `-1` for a sell. -/
noncomputable def actionSign (a : Action) : ℝ :=
  match a with
  | .buy => 1
  | .sell => -1

/-- One iteration of the loop body of `strategy_payoff` (models.py lines
48-52): add `multiplier * payoff_vals` to the running payoff vector and
`multiplier * premium` to the running cost, where
`multiplier = quantity * (1 if buy else -1)`. -/
noncomputable def strategy_step (S_range : List ℝ) (acc : List ℝ × ℝ)
    (pos : Position) : List ℝ × ℝ :=
  (List.zipWith (fun a b => a + pos.quantity * actionSign pos.action * b)
      acc.1 (option_payoff S_range pos.strike pos.type),
    acc.2 + pos.quantity * actionSign pos.action * pos.premium)

/-- Embedding of `strategy_payoff` (models.py lines 43-54): starting from
`np.zeros_like(S_range)` and cost `0`, fold the loop body over the
positions, then return `total_payoff - total_cost` (broadcast over the
grid). -/
noncomputable def strategy_payoff (S_range : List ℝ) (positions : List Position) : List ℝ :=
  (positions.foldl (strategy_step S_range) (S_range.map fun _ => 0, 0)).1.map
    fun x => x - (positions.foldl (strategy_step S_range) (S_range.map fun _ => 0, 0)).2

/-- Embedding of `monte_carlo_option` (models.py lines 56-63). The `simulations`
standard-normal draws `Z = np.random.standard_normal(simulations)` are
passed explicitly as the list `Z` (the randomness source of the call).
Terminal prices: `S_T = S * exp((r - 0.5 σ²) T + σ √T Z)` element-wise;
result: `(exp(-r T) * np.mean(option_payoff(S_T, K, type)), S_T)`. -/
noncomputable def monte_carlo_option (S K T r sigma : ℝ) (Z : List ℝ)
    (option_type : OptionType) : ℝ × List ℝ :=
  (Real.exp (-r * T) *
      ((option_payoff
          (Z.map fun z => S * Real.exp ((r - 0.5 * sigma ^ 2) * T + sigma * Real.sqrt T * z))
          K option_type).sum /
        ((option_payoff
            (Z.map fun z => S * Real.exp ((r - 0.5 * sigma ^ 2) * T + sigma * Real.sqrt T * z))
            K option_type).length : ℝ)),
    Z.map fun z => S * Real.exp ((r - 0.5 * sigma ^ 2) * T + sigma * Real.sqrt T * z))

/-- Linear interpolation step of `np.percentile` at fractional index `pos`
into the ascending-sorted list `s`: with `i = ⌊pos⌋` and `frac = pos - i`,
the value `s[i] + frac * (s[i+1] - s[i])`; an out-of-range `i+1` falls back
to `s[i]` (numpy clips the upper index), and an out-of-range `i` yields the
junk default `0` (numpy raises on an empty input). -/
noncomputable def interpolate (s : List ℝ) (pos : ℝ) : ℝ :=
  s.getD ⌊pos⌋₊ 0 +
    (pos - (⌊pos⌋₊ : ℝ)) * (s.getD (⌊pos⌋₊ + 1) (s.getD ⌊pos⌋₊ 0) - s.getD ⌊pos⌋₊ 0)

/-- Model of `np.percentile(sample, q)` with the default linear interpolation:
sort ascending and interpolate at fractional index `(n - 1) * q / 100`. -/
noncomputable def percentile (sample : List ℝ) (q : ℝ) : ℝ :=
  interpolate (List.insertionSort (· ≤ ·) sample)
    ((((List.insertionSort (· ≤ ·) sample).length : ℝ) - 1) * q / 100)

/-- Embedding of `VaR_95 = np.percentile(S_T, 5)` (main.py line 113). -/
noncomputable def VaR_95 (S_T : List ℝ) : ℝ :=
  percentile S_T 5

/-- Embedding of `ES_95 = S_T[S_T <= VaR_95].mean()` (main.py line 114):
the arithmetic mean of the subsample at or below `VaR_95`, computed
unconditionally (no guard; on an empty subsample the numpy mean is `NaN`,
modelled here by the division-by-zero junk value `0`). -/
noncomputable def ES_95 (S_T : List ℝ) : ℝ :=
  (S_T.filter fun x => x ≤ VaR_95 S_T).sum /
    ((S_T.filter fun x => x ≤ VaR_95 S_T).length : ℝ)

/-- The argument tuple of `monte_carlo_option`, the memoization key of the
`@st.cache_data` decorator on it (models.py line 56). -/
structure MCArgs where
  S : ℝ
  K : ℝ
  T : ℝ
  r : ℝ
  sigma : ℝ
  simulations : ℕ
  option_type : OptionType

/-- Modelled from the spec: the `@st.cache_data` decorator applied to
`monte_carlo_option` in models.py line 56 (the decorator itself is
streamlit library code, not part of this repository). Per the spec it
"memoizes it by exact input equality" and "freezes the sample across
repeated calls with identical inputs until inputs change, rather than
drawing fresh randomness every call". The cache maps an argument tuple to a
previously computed result; a call with a cached argument returns the
stored result and leaves the cache unchanged; a call with an uncached
argument runs `monte_carlo_option` on the fresh standard-normal draws of
that invocation and stores the result. -/
noncomputable def cachedCall (cache : MCArgs → Option (ℝ × List ℝ)) (a : MCArgs)
    (fresh : List ℝ) : (ℝ × List ℝ) × (MCArgs → Option (ℝ × List ℝ)) :=
  match cache a with
  | some out => (out, cache)
  | none =>
      letI : DecidableEq MCArgs := Classical.decEq _
      ((monte_carlo_option a.S a.K a.T a.r a.sigma fresh a.option_type),
        Function.update cache a
          (some (monte_carlo_option a.S a.K a.T a.r a.sigma fresh a.option_type)))

/-- Concrete argument tuple used to exhibit the caching behavior. -/
noncomputable def mcArgs1 : MCArgs :=
  ⟨1, 1, 1, 0, 1, 1, .call⟩

end OptionsPricing

namespace OptionsPricing

lemma normPdf_eq_gaussianPDFReal : normPdf = ProbabilityTheory.gaussianPDFReal 0 1 := by
  funext x
  simp only [normPdf, ProbabilityTheory.gaussianPDFReal, NNReal.coe_one, mul_one, sub_zero]
  rw [inv_mul_eq_div]

lemma normPdf_nonneg (x : ℝ) : 0 ≤ normPdf x := by
  rw [normPdf_eq_gaussianPDFReal]
  exact ProbabilityTheory.gaussianPDFReal_nonneg 0 1 x

lemma integrable_normPdf : Integrable normPdf := by
  rw [normPdf_eq_gaussianPDFReal]
  exact ProbabilityTheory.integrable_gaussianPDFReal 0 1

lemma integral_normPdf : ∫ x, normPdf x = 1 := by
  rw [normPdf_eq_gaussianPDFReal]
  exact ProbabilityTheory.integral_gaussianPDFReal_eq_one 0 one_ne_zero

lemma normCdf_nonneg (x : ℝ) : 0 ≤ normCdf x :=
  setIntegral_nonneg measurableSet_Iic fun t _ => normPdf_nonneg t

lemma normCdf_le_one (x : ℝ) : normCdf x ≤ 1 := by
  rw [normCdf, ← integral_normPdf]
  exact setIntegral_le_integral integrable_normPdf (ae_of_all _ normPdf_nonneg)

lemma normCdf_neg_eq (x : ℝ) : normCdf (-x) = ∫ t in Set.Ioi x, normPdf t := by
  have h := integral_comp_neg_Iic (-x) normPdf
  rw [neg_neg] at h
  rw [normCdf, ← h]
  simp [normPdf, neg_sq]

/-- The reflection identity `Φ x + Φ (-x) = 1` for the standard normal CDF. -/
lemma normCdf_add_neg (x : ℝ) : normCdf x + normCdf (-x) = 1 := by
  rw [normCdf, normCdf_neg_eq, ← integral_normPdf]
  exact intervalIntegral.integral_Iic_add_Ioi integrable_normPdf.integrableOn
    integrable_normPdf.integrableOn

/-- C2: Put-call parity. For every valid `MarketParams` (S>0, K>0, T>0, σ>0),
`black_scholes S K T r σ call - black_scholes S K T r σ put = S - K exp(-r T)`.
(The spec states this within floating-point tolerance; over the reals the
identity is exact.) -/
theorem put_call_parity (S K T r sigma : ℝ)
    (hS : 0 < S) (hK : 0 < K) (hT : 0 < T) (hsigma : 0 < sigma) :
    black_scholes S K T r sigma .call - black_scholes S K T r sigma .put
      = S - K * Real.exp (-r * T) := by
  simp only [black_scholes]
  linear_combination S * normCdf_add_neg (bs_d1 S K T r sigma)
    - K * Real.exp (-r * T) * normCdf_add_neg (bs_d2 S K T r sigma)

/-- Witness for C2 at the concrete market parameters S=K=T=σ=1, r=0. -/
theorem put_call_parity_witness :
    (0 < (1 : ℝ)) ∧
      black_scholes 1 1 1 0 1 .call - black_scholes 1 1 1 0 1 .put
        = 1 - 1 * Real.exp (-0 * 1) :=
  ⟨by norm_num,
    put_call_parity 1 1 1 0 1 (by norm_num) (by norm_num) (by norm_num) (by norm_num)⟩

/-- C4: Greeks sign bounds. For every valid `MarketParams`
(S>0, K>0, T>0, σ>0, r≥0): call Delta ∈ [0,1], put Delta ∈ [-1,0],
Gamma ≥ 0 for both option types, Vega ≥ 0 for both option types. -/
theorem greeks_sign_bounds (S K T r sigma : ℝ)
    (hS : 0 < S) (hK : 0 < K) (hT : 0 < T) (hsigma : 0 < sigma) (hr : 0 ≤ r) :
    (0 ≤ (calculate_greeks S K T r sigma .call).Delta
      ∧ (calculate_greeks S K T r sigma .call).Delta ≤ 1) ∧
    (-1 ≤ (calculate_greeks S K T r sigma .put).Delta
      ∧ (calculate_greeks S K T r sigma .put).Delta ≤ 0) ∧
    (0 ≤ (calculate_greeks S K T r sigma .call).Gamma
      ∧ 0 ≤ (calculate_greeks S K T r sigma .put).Gamma) ∧
    (0 ≤ (calculate_greeks S K T r sigma .call).Vega
      ∧ 0 ≤ (calculate_greeks S K T r sigma .put).Vega) := by
  have hcdf0 := normCdf_nonneg (bs_d1 S K T r sigma)
  have hcdf1 := normCdf_le_one (bs_d1 S K T r sigma)
  have hpdf := normPdf_nonneg (bs_d1 S K T r sigma)
  have hgamma : 0 ≤ normPdf (bs_d1 S K T r sigma) / (S * sigma * Real.sqrt T) :=
    div_nonneg hpdf
      (mul_nonneg (mul_nonneg hS.le hsigma.le) (Real.sqrt_nonneg T))
  have hvega : 0 ≤ S * normPdf (bs_d1 S K T r sigma) * Real.sqrt T / 100 :=
    div_nonneg (mul_nonneg (mul_nonneg hS.le hpdf) (Real.sqrt_nonneg T)) (by norm_num)
  refine ⟨⟨?_, ?_⟩, ⟨?_, ?_⟩, ⟨?_, ?_⟩, ?_, ?_⟩ <;>
    simp only [calculate_greeks] <;> first
      | exact hcdf0 | exact hcdf1 | exact hgamma | exact hvega | linarith

/-- Witness for C4 at S=K=T=σ=1, r=0. -/
theorem greeks_sign_bounds_witness :
    (0 < (1 : ℝ)) ∧ (0 ≤ (0 : ℝ)) ∧
    ((0 ≤ (calculate_greeks 1 1 1 0 1 .call).Delta
      ∧ (calculate_greeks 1 1 1 0 1 .call).Delta ≤ 1) ∧
    (-1 ≤ (calculate_greeks 1 1 1 0 1 .put).Delta
      ∧ (calculate_greeks 1 1 1 0 1 .put).Delta ≤ 0) ∧
    (0 ≤ (calculate_greeks 1 1 1 0 1 .call).Gamma
      ∧ 0 ≤ (calculate_greeks 1 1 1 0 1 .put).Gamma) ∧
    (0 ≤ (calculate_greeks 1 1 1 0 1 .call).Vega
      ∧ 0 ≤ (calculate_greeks 1 1 1 0 1 .put).Vega)) :=
  ⟨by norm_num, by norm_num,
    greeks_sign_bounds 1 1 1 0 1 (by norm_num) (by norm_num) (by norm_num)
      (by norm_num) (by norm_num)⟩

/-- C6: `option_payoff` maps the grid element-wise (preserving length and
order) to `max (S - K) 0` for a call and `max (K - S) 0` for a put; at
`S = K` both payoffs are `0`; on the grid `[50, 100, 150]` with `K = 100`
the call payoff is `[0, 0, 50]` and the put payoff is `[50, 0, 0]`. -/
theorem option_payoff_spec :
    (∀ (S_range : List ℝ) (K : ℝ),
        option_payoff S_range K .call = S_range.map fun s => max (s - K) 0) ∧
    (∀ (S_range : List ℝ) (K : ℝ),
        option_payoff S_range K .put = S_range.map fun s => max (K - s) 0) ∧
    (∀ K : ℝ, option_payoff [K] K .call = [0] ∧ option_payoff [K] K .put = [0]) ∧
    option_payoff [50, 100, 150] 100 .call = [0, 0, 50] ∧
    option_payoff [50, 100, 150] 100 .put = [50, 0, 0] := by
  refine ⟨fun _ _ => rfl, fun _ _ => rfl, fun K => ⟨?_, ?_⟩, ?_, ?_⟩ <;>
    norm_num [option_payoff, max_def]

lemma option_payoff_eq_map (S_range : List ℝ) (K : ℝ) (option_type : OptionType) :
    option_payoff S_range K option_type
      = S_range.map fun s => scalarPayoff s K option_type := by
  cases option_type <;> rfl

lemma strategy_foldl (S_range : List ℝ) (ps : List Position) (F : ℝ → ℝ) (c : ℝ) :
    ps.foldl (strategy_step S_range) (S_range.map F, c) =
      (S_range.map fun s =>
          F s + (ps.map fun p =>
            p.quantity * actionSign p.action * scalarPayoff s p.strike p.type).sum,
        c + (ps.map fun p => p.quantity * actionSign p.action * p.premium).sum) := by
  induction ps generalizing F c with
  | nil => simp
  | cons p ps ih =>
      have hstep : strategy_step S_range (S_range.map F, c) p =
          (S_range.map fun s =>
              F s + p.quantity * actionSign p.action * scalarPayoff s p.strike p.type,
            c + p.quantity * actionSign p.action * p.premium) := by
        simp only [strategy_step, option_payoff_eq_map, List.zipWith_map, List.zipWith_same]
      rw [List.foldl_cons, hstep, ih]
      simp only [List.map_cons, List.sum_cons, Prod.mk.injEq, add_assoc]

/-- C5: `strategy_payoff` returns, at each grid point `s`, the sum over
positions of (sign × quantity × the option payoff of that position at `s`) minus
the net premium (sign × quantity × premium summed over positions), a
constant offset that does not depend on the grid point; and on the empty
position list it returns the all-zero curve with the length of the grid. -/
theorem strategy_payoff_spec (S_range : List ℝ) (positions : List Position) :
    strategy_payoff S_range positions =
      (S_range.map fun s =>
        (positions.map fun p =>
          p.quantity * actionSign p.action * scalarPayoff s p.strike p.type).sum -
        (positions.map fun p => p.quantity * actionSign p.action * p.premium).sum) ∧
    strategy_payoff S_range [] = S_range.map fun _ => 0 := by
  have key : ∀ ps : List Position,
      strategy_payoff S_range ps =
        S_range.map fun s =>
          (ps.map fun p =>
            p.quantity * actionSign p.action * scalarPayoff s p.strike p.type).sum -
          (ps.map fun p => p.quantity * actionSign p.action * p.premium).sum := by
    intro ps
    rw [strategy_payoff, strategy_foldl S_range ps (fun _ => 0) 0]
    simp [List.map_map, Function.comp]
  exact ⟨key positions, by simpa using key []⟩

lemma linspace_length (a b : ℝ) (n : ℕ) : (linspace a b n).length = n := by
  rw [linspace, List.length_map, List.length_range]

lemma linspace_getD (a b : ℝ) (n k : ℕ) (hk : k < n) :
    (linspace a b n).getD k 0 = a + (b - a) * k / ((n : ℝ) - 1) := by
  have hlen : k < (linspace a b n).length := by rwa [linspace_length]
  rw [List.getD_eq_getElem _ _ hlen]
  simp [linspace]

/-- C7: for `S > 0` and `factor ∈ (0,1)`, `get_price_range S factor` is a
deterministic list of exactly 100 evenly spaced points whose first element
is `S (1 - factor)`, whose last element is `S (1 + factor)`, and which is
strictly increasing. -/
theorem get_price_range_spec (S factor : ℝ)
    (hS : 0 < S) (hf0 : 0 < factor) (hf1 : factor < 1) :
    (get_price_range S factor).length = 100 ∧
    (get_price_range S factor).getD 0 0 = S * (1 - factor) ∧
    (get_price_range S factor).getD 99 0 = S * (1 + factor) ∧
    (get_price_range S factor).Pairwise (· < ·) := by
  refine ⟨linspace_length _ _ _, ?_, ?_, ?_⟩
  · rw [get_price_range, linspace_getD _ _ _ _ (by norm_num)]
    norm_num
  · rw [get_price_range, linspace_getD _ _ _ _ (by norm_num)]
    push_cast
    field_simp
    ring
  · rw [get_price_range, linspace, List.pairwise_map]
    refine (List.pairwise_lt_range 100).imp fun {i j} hij => ?_
    have hij' : (i : ℝ) < j := by exact_mod_cast hij
    have hba : (0 : ℝ) < S * (1 + factor) - S * (1 - factor) := by nlinarith
    have h99 : (0 : ℝ) < ((100 : ℕ) : ℝ) - 1 := by norm_num
    exact add_lt_add_left
      ((div_lt_div_iff_of_pos_right h99).2 (mul_lt_mul_of_pos_left hij' hba)) _

/-- Witness for C7 at `S = 100`, `factor = 0.5`, where the grid spans
`[50, 150]` inclusive. -/
theorem get_price_range_spec_witness :
    (0 < (100 : ℝ)) ∧ (0 < (0.5 : ℝ)) ∧ ((0.5 : ℝ) < 1) ∧
    ((get_price_range 100 0.5).length = 100 ∧
      (get_price_range 100 0.5).getD 0 0 = 100 * (1 - 0.5) ∧
      (get_price_range 100 0.5).getD 99 0 = 100 * (1 + 0.5) ∧
      (get_price_range 100 0.5).Pairwise (· < ·)) :=
  ⟨by norm_num, by norm_num, by norm_num,
    get_price_range_spec 100 0.5 (by norm_num) (by norm_num) (by norm_num)⟩

/-- C3: for a draw `Z` of `simulations` standard-normal variates,
`monte_carlo_option` returns a pair whose sample has length exactly
`simulations`, whose `i`-th sample element is
`S exp((r - σ²/2) T + σ √T Z_i)`, and whose price component equals
`exp(-r T)` times the arithmetic mean of the `option_payoff` payoffs over
that same sample. -/
theorem monte_carlo_option_spec (S K T r sigma : ℝ) (simulations : ℕ) (Z : List ℝ)
    (option_type : OptionType) (hZ : Z.length = simulations) :
    (monte_carlo_option S K T r sigma Z option_type).2.length = simulations ∧
    (∀ (i : ℕ) (hi : i < (monte_carlo_option S K T r sigma Z option_type).2.length)
        (hiZ : i < Z.length),
      (monte_carlo_option S K T r sigma Z option_type).2.get ⟨i, hi⟩ =
        S * Real.exp ((r - 0.5 * sigma ^ 2) * T + sigma * Real.sqrt T * Z.get ⟨i, hiZ⟩)) ∧
    (monte_carlo_option S K T r sigma Z option_type).1 =
      Real.exp (-r * T) *
        ((option_payoff (monte_carlo_option S K T r sigma Z option_type).2 K
            option_type).sum /
          ((option_payoff (monte_carlo_option S K T r sigma Z option_type).2 K
              option_type).length : ℝ)) := by
  refine ⟨by simp [monte_carlo_option, hZ], ?_, rfl⟩
  intro i hi hiZ
  simp [monte_carlo_option]

/-- Witness for C3 at S=K=T=σ=1, r=0, one simulation with draw Z = [0]. -/
theorem monte_carlo_option_spec_witness :
    ([(0 : ℝ)].length = 1) ∧
    ((monte_carlo_option 1 1 1 0 1 [0] .call).2.length = 1 ∧
    (∀ (i : ℕ) (hi : i < (monte_carlo_option 1 1 1 0 1 [0] .call).2.length)
        (hiZ : i < [(0 : ℝ)].length),
      (monte_carlo_option 1 1 1 0 1 [0] .call).2.get ⟨i, hi⟩ =
        1 * Real.exp ((0 - 0.5 * 1 ^ 2) * 1 +
          1 * Real.sqrt 1 * ([(0 : ℝ)].get ⟨i, hiZ⟩))) ∧
    (monte_carlo_option 1 1 1 0 1 [0] .call).1 =
      Real.exp (-0 * 1) *
        ((option_payoff (monte_carlo_option 1 1 1 0 1 [0] .call).2 1 .call).sum /
          ((option_payoff (monte_carlo_option 1 1 1 0 1 [0] .call).2 1
              .call).length : ℝ))) :=
  ⟨rfl, monte_carlo_option_spec 1 1 1 0 1 1 [0] .call rfl⟩

lemma interpolate_exists_le (s : List ℝ) (pos : ℝ) (hpos : 0 ≤ pos)
    (hin : ⌊pos⌋₊ < s.length) : ∃ x ∈ s, x ≤ interpolate s pos := by
  have hfrac0 : 0 ≤ pos - (⌊pos⌋₊ : ℝ) := sub_nonneg.2 (Nat.floor_le hpos)
  have hfrac1 : pos - (⌊pos⌋₊ : ℝ) ≤ 1 := by
    have h := Nat.lt_floor_add_one pos
    push_cast at h
    linarith
  have ha_mem : s.getD ⌊pos⌋₊ 0 ∈ s := by
    rw [List.getD_eq_getElem _ _ hin]
    exact List.getElem_mem _
  by_cases hup : ⌊pos⌋₊ + 1 < s.length
  · have hX_mem : s.getD (⌊pos⌋₊ + 1) (s.getD ⌊pos⌋₊ 0) ∈ s := by
      rw [List.getD_eq_getElem _ _ hup]
      exact List.getElem_mem _
    by_cases hXa : s.getD (⌊pos⌋₊ + 1) (s.getD ⌊pos⌋₊ 0) ≤ s.getD ⌊pos⌋₊ 0
    · refine ⟨_, hX_mem, ?_⟩
      simp only [interpolate]
      nlinarith [mul_nonneg (sub_nonneg.2 hfrac1) (sub_nonneg.2 hXa)]
    · refine ⟨_, ha_mem, ?_⟩
      simp only [interpolate]
      nlinarith [mul_nonneg hfrac0 (sub_nonneg.2 (le_of_not_le hXa))]
  · refine ⟨_, ha_mem, ?_⟩
    simp only [interpolate, List.getD_eq_default _ _ (le_of_not_lt hup)]
    nlinarith

lemma exists_mem_le_var95 (S_T : List ℝ) (h : S_T ≠ []) :
    ∃ x ∈ S_T, x ≤ VaR_95 S_T := by
  have hperm : (List.insertionSort (· ≤ ·) S_T).Perm S_T := List.perm_insertionSort _ _
  have hslen : 0 < (List.insertionSort (· ≤ ·) S_T).length := by
    rw [hperm.length_eq]
    exact List.length_pos.2 h
  have hone : (1 : ℝ) ≤ ((List.insertionSort (· ≤ ·) S_T).length : ℝ) := by
    exact_mod_cast hslen
  have hpos : 0 ≤ (((List.insertionSort (· ≤ ·) S_T).length : ℝ) - 1) * 5 / 100 := by
    have h1 : (0 : ℝ) ≤ ((List.insertionSort (· ≤ ·) S_T).length : ℝ) - 1 := by linarith
    positivity
  have hfloor : ⌊(((List.insertionSort (· ≤ ·) S_T).length : ℝ) - 1) * 5 / 100⌋₊
      < (List.insertionSort (· ≤ ·) S_T).length := by
    have h1 : (((List.insertionSort (· ≤ ·) S_T).length : ℝ) - 1) * 5 / 100
        ≤ ((List.insertionSort (· ≤ ·) S_T).length : ℝ) - 1 := by linarith
    have h2 : (⌊(((List.insertionSort (· ≤ ·) S_T).length : ℝ) - 1) * 5 / 100⌋₊ : ℝ)
        < ((List.insertionSort (· ≤ ·) S_T).length : ℝ) :=
      lt_of_le_of_lt (le_trans (Nat.floor_le hpos) h1) (by linarith)
    exact_mod_cast h2
  obtain ⟨x, hxs, hxle⟩ :=
    interpolate_exists_le (List.insertionSort (· ≤ ·) S_T) _ hpos hfloor
  exact ⟨x, hperm.mem_iff.1 hxs, hxle⟩

lemma mem_var95_filter (S_T : List ℝ) (h : S_T ≠ []) :
    ∃ x, x ∈ S_T.filter fun y => y ≤ VaR_95 S_T := by
  obtain ⟨x, hx, hxle⟩ := exists_mem_le_var95 S_T h
  exact ⟨x, List.mem_filter.2 ⟨hx, by simpa using hxle⟩⟩

/-- C8: VaR/ES ordering. For every nonempty simulated terminal-price
sample, the Expected Shortfall (mean of the subsample at or below the 5th
percentile) is at most the VaR (the 5th percentile itself). -/
theorem es95_le_var95 (S_T : List ℝ) (h : S_T ≠ []) : ES_95 S_T ≤ VaR_95 S_T := by
  obtain ⟨x, hmem⟩ := mem_var95_filter S_T h
  have hlen : (0 : ℝ) < ((S_T.filter fun y => y ≤ VaR_95 S_T).length : ℝ) := by
    exact_mod_cast List.length_pos.2 (List.ne_nil_of_mem hmem)
  have hbound : ∀ y ∈ S_T.filter fun y => y ≤ VaR_95 S_T, y ≤ VaR_95 S_T := by
    intro y hy
    simpa using (List.mem_filter.1 hy).2
  have hsum : (S_T.filter fun y => y ≤ VaR_95 S_T).sum
      ≤ ((S_T.filter fun y => y ≤ VaR_95 S_T).length : ℝ) * VaR_95 S_T := by
    have hle := List.sum_le_card_nsmul (S_T.filter fun y => y ≤ VaR_95 S_T)
      (VaR_95 S_T) hbound
    simpa [nsmul_eq_mul] using hle
  rw [ES_95, div_le_iff₀ hlen]
  linarith

/-- Witness for C8 on the one-element sample `[1]`. -/
theorem es95_le_var95_witness :
    (([1] : List ℝ) ≠ []) ∧ ES_95 [1] ≤ VaR_95 [1] :=
  ⟨by simp, es95_le_var95 [1] (by simp)⟩

/-- C10 (implicit): for every nonempty terminal-price sample some sample
element is at or below the computed 5th percentile, so the tail subsample
selected by the Expected Shortfall step is nonempty and its length is
nonzero — the unguarded mean never sees an empty subsample for nonempty
input. -/
theorem es95_tail_nonempty (S_T : List ℝ) (h : S_T ≠ []) :
    (∃ x ∈ S_T, x ≤ VaR_95 S_T) ∧
    (S_T.filter fun x => x ≤ VaR_95 S_T) ≠ [] ∧
    (S_T.filter fun x => x ≤ VaR_95 S_T).length ≠ 0 := by
  obtain ⟨x, hmem⟩ := mem_var95_filter S_T h
  refine ⟨exists_mem_le_var95 S_T h, List.ne_nil_of_mem hmem, ?_⟩
  intro hlen
  exact List.ne_nil_of_mem hmem (List.length_eq_zero.1 hlen)

/-- Witness for C10 on the one-element sample `[2]`. -/
theorem es95_tail_nonempty_witness :
    (([2] : List ℝ) ≠ []) ∧
    ((∃ x ∈ ([2] : List ℝ), x ≤ VaR_95 [2]) ∧
      (([2] : List ℝ).filter fun x => x ≤ VaR_95 [2]) ≠ [] ∧
      (([2] : List ℝ).filter fun x => x ≤ VaR_95 [2]).length ≠ 0) :=
  ⟨by simp, es95_tail_nonempty [2] (by simp)⟩

/-- C1: evaluation of the Expected Shortfall code at an input whose
`≤ VaR` tail subsample is empty (in the real-valued model, the empty
sample). The code computes the mean of the empty subsample unconditionally
— no insufficient-sample condition is signalled and the result is not set
to VaR; the quotient `0 / 0` (numpy: `NaN`) collapses to the junk value
`0` under the real division convention. -/
theorem es95_unguarded_mean_of_empty :
    (([] : List ℝ).filter fun x => x ≤ VaR_95 []) = [] ∧
    ES_95 [] = (([] : List ℝ).sum) / ((([] : List ℝ).length : ℕ) : ℝ) ∧
    ES_95 [] = 0 := by
  refine ⟨rfl, rfl, ?_⟩
  simp [ES_95]

lemma cachedCall_hit (cache : MCArgs → Option (ℝ × List ℝ)) (a : MCArgs)
    (fresh : List ℝ) (out : ℝ × List ℝ) (h : cache a = some out) :
    cachedCall cache a fresh = (out, cache) := by
  unfold cachedCall
  rw [h]

lemma cachedCall_miss (cache : MCArgs → Option (ℝ × List ℝ)) (a : MCArgs)
    (fresh : List ℝ) (h : cache a = none) :
    (cachedCall cache a fresh).1 =
      monte_carlo_option a.S a.K a.T a.r a.sigma fresh a.option_type ∧
    (cachedCall cache a fresh).2 a =
      some (monte_carlo_option a.S a.K a.T a.r a.sigma fresh a.option_type) := by
  unfold cachedCall
  rw [h]
  exact ⟨rfl, by simp⟩

/-- C9 counterexample: under `st.cache_data` memoization, the second of two
consecutive calls with identical inputs returns the frozen sample of the
first call, not a sample built from the fresh standard-normal draws of the
second invocation — the sample is not regenerated on every call. -/
theorem monte_carlo_cached_not_fresh :
    (cachedCall (cachedCall (fun _ => none) mcArgs1 [0]).2 mcArgs1 [1]).1.2 =
      (monte_carlo_option 1 1 1 0 1 [0] .call).2 ∧
    (cachedCall (cachedCall (fun _ => none) mcArgs1 [0]).2 mcArgs1 [1]).1.2 ≠
      (monte_carlo_option 1 1 1 0 1 [1] .call).2 := by
  have h1 := cachedCall_miss (fun _ => none) mcArgs1 [0] rfl
  have h2 := cachedCall_hit (cachedCall (fun _ => none) mcArgs1 [0]).2 mcArgs1 [1] _ h1.2
  have harg : ((0 : ℝ) - 0.5 * 1 ^ 2) * 1 + 1 * Real.sqrt 1 * 0
      < ((0 : ℝ) - 0.5 * 1 ^ 2) * 1 + 1 * Real.sqrt 1 * 1 := by
    rw [Real.sqrt_one]
    norm_num
  have hne : Real.exp (((0 : ℝ) - 0.5 * 1 ^ 2) * 1 + 1 * Real.sqrt 1 * 0)
      ≠ Real.exp (((0 : ℝ) - 0.5 * 1 ^ 2) * 1 + 1 * Real.sqrt 1 * 1) :=
    ne_of_lt (Real.exp_lt_exp.2 harg)
  constructor
  · rw [h2]
    rfl
  · rw [h2]
    intro hc
    apply hne
    simpa [monte_carlo_option, mcArgs1] using hc

/-- C9 amended: `monte_carlo_option` in the source is wrapped in
`st.cache_data`, which memoizes by exact input equality. A call whose
argument tuple is cached returns the stored (frozen) result and does not
draw; a call whose argument tuple is not cached runs `monte_carlo_option`
on the fresh standard-normal draws of that invocation and caches the
result. Fresh randomness is thus drawn only on cache misses, not on every
invocation. -/
theorem monte_carlo_cache_semantics (cache : MCArgs → Option (ℝ × List ℝ)) (a : MCArgs)
    (fresh : List ℝ) (out : ℝ × List ℝ) :
    (cache a = some out → cachedCall cache a fresh = (out, cache)) ∧
    (cache a = none →
      (cachedCall cache a fresh).1 =
        monte_carlo_option a.S a.K a.T a.r a.sigma fresh a.option_type ∧
      (cachedCall cache a fresh).2 a =
        some (monte_carlo_option a.S a.K a.T a.r a.sigma fresh a.option_type)) :=
  ⟨cachedCall_hit cache a fresh out, cachedCall_miss cache a fresh⟩

/-- Witness for the amended statement of C9: a hit on a constantly populated
cache returns the stored value; a miss on the empty cache runs the
underlying simulation. -/
theorem monte_carlo_cache_semantics_witness :
    ((fun _ : MCArgs => some ((0 : ℝ), ([] : List ℝ))) mcArgs1
        = some ((0 : ℝ), ([] : List ℝ)) ∧
      cachedCall (fun _ : MCArgs => some ((0 : ℝ), ([] : List ℝ))) mcArgs1 [0]
        = (((0 : ℝ), ([] : List ℝ)), fun _ : MCArgs => some ((0 : ℝ), ([] : List ℝ)))) ∧
    ((fun _ : MCArgs => (none : Option (ℝ × List ℝ))) mcArgs1 = none ∧
      (cachedCall (fun _ : MCArgs => (none : Option (ℝ × List ℝ))) mcArgs1 [0]).1 =
        monte_carlo_option mcArgs1.S mcArgs1.K mcArgs1.T mcArgs1.r mcArgs1.sigma [0]
          mcArgs1.option_type ∧
      (cachedCall (fun _ : MCArgs => (none : Option (ℝ × List ℝ))) mcArgs1 [0]).2 mcArgs1 =
        some (monte_carlo_option mcArgs1.S mcArgs1.K mcArgs1.T mcArgs1.r mcArgs1.sigma [0]
          mcArgs1.option_type)) :=
  ⟨⟨rfl, (monte_carlo_cache_semantics (fun _ => some ((0 : ℝ), ([] : List ℝ)))
      mcArgs1 [0] ((0 : ℝ), ([] : List ℝ))).1 rfl⟩,
    rfl, (monte_carlo_cache_semantics (fun _ => none) mcArgs1 [0]
      ((0 : ℝ), ([] : List ℝ))).2 rfl⟩

end OptionsPricing
